import Mathlib

/-!
Verification development for the `astrbot_plugin_text2image` core:
a shallow embedding of the markdown line parser (`core/markdown.py`),
the emoji/separator segmenter (`core/emoji.py`), and the line-wrapping
and paint phases of the renderer (`core/renderer.py`), together with
theorems settling the specified properties.

Text is modelled as `List Char`; the inputs of the line-oriented
functions are single lines (the renderer feeds `text.split('\n')`,
so lines never contain a newline character).  Machine integers are
modelled as `Nat`: every quantity involved (widths, counts, indices)
is non-negative in the source, and the one subtraction-with-clamping
pattern (`max(0, a - b)` / `max(1, a - b)`) coincides with truncated
`Nat` subtraction composed with `max`.  The external metrics and glyph
providers (fonts, emoji CDN) are parameters, as the spec scopes them
out of the core.
-/

namespace T2I

/-- Model of `TextSegment` from `core/styles.py` (all fields and defaults). -/
structure TextSegment where
  text : List Char
  is_emoji : Bool := false
  no_wrap : Bool := false
  bold : Bool := false
  italic : Bool := false
  code : Bool := false
  strike : Bool := false
  heading : Nat := 0
  quote : Bool := false
  code_block : Bool := false
  horizontal_rule : Bool := false
  list_item : Bool := false
  list_ordered : Bool := false
  list_level : Nat := 0
  list_index : Nat := 0
  list_continuation : Bool := false
deriving DecidableEq, Repr, Inhabited

/-- Model of `TableCell` from `core/styles.py`. -/
structure TableCell where
  text : List Char
  segments : List TextSegment
deriving DecidableEq, Repr, Inhabited

/-- Model of `TableRow` from `core/styles.py`. -/
structure TableRow where
  cells : List TableCell
  is_header : Bool := false
deriving DecidableEq, Repr, Inhabited

/-- Model of `LineContext` from `core/markdown.py`. -/
structure LineContext where
  in_code_block : Bool := false
  code_block_lang : List Char := []
  code_lines : List (List Char) := []
  in_table : Bool := false
  table_rows : List TableRow := []
  table_header_parsed : Bool := false
deriving DecidableEq, Repr, Inhabited

/-! ### Python string helpers -/

/-- Python `str.strip()` whitespace class (ASCII part, which is all the
repository's line-level regexes rely on). -/
def isPySpace (c : Char) : Bool :=
  c = ' ' || c = '\t' || c = '\n' || c = '\r' || c = '\x0b' || c = '\x0c'

/-- Python `str.lstrip()`. -/
def pyLstrip (s : List Char) : List Char := s.dropWhile isPySpace

/-- Python `str.rstrip()`. -/
def pyRstrip (s : List Char) : List Char := (s.reverse.dropWhile isPySpace).reverse

/-- Python `str.strip()`. -/
def pyStrip (s : List Char) : List Char := pyRstrip (pyLstrip s)

/-- Python `str.split(sep)` for a one-character separator: splitting an
empty string yields `[""]`, separators at the ends yield empty pieces. -/
def splitOnChar (sep : Char) : List Char → List (List Char)
  | [] => [[]]
  | c :: rest =>
    let r := splitOnChar sep rest
    if c = sep then [] :: r
    else
      match r with
      | [] => [[c]]
      | p :: ps => (c :: p) :: ps

/-! ### Emoji/separator segmenter (`EmojiHandler` in `core/emoji.py`) -/

/-- The base-emoji character alternatives of `EmojiHandler.PATTERN`:
the bracketed codepoint classes before the trailing-modifier group. -/
def isEmojiBase (c : Char) : Bool :=
  let n := c.toNat
  n = 0x2139 || (0x2194 ≤ n && n ≤ 0x2199) || (0x21A9 ≤ n && n ≤ 0x21AA) ||
  (0x231A ≤ n && n ≤ 0x231B) || n = 0x2328 || n = 0x23CF ||
  (0x23E9 ≤ n && n ≤ 0x23F3) || (0x23F8 ≤ n && n ≤ 0x23FA) || n = 0x24C2 ||
  (0x25AA ≤ n && n ≤ 0x25AB) || n = 0x25B6 || n = 0x25C0 ||
  (0x25FB ≤ n && n ≤ 0x25FE) || (0x2600 ≤ n && n ≤ 0x26FF) ||
  (0x2702 ≤ n && n ≤ 0x27BF) || (0x2934 ≤ n && n ≤ 0x2935) ||
  (0x2B05 ≤ n && n ≤ 0x2B07) || (0x2B1B ≤ n && n ≤ 0x2B1C) ||
  n = 0x2B50 || n = 0x2B55 || n = 0x3030 || n = 0x303D || n = 0x3297 || n = 0x3299 ||
  n = 0x1F004 || n = 0x1F0CF || (0x1F170 ≤ n && n ≤ 0x1F171) ||
  (0x1F17E ≤ n && n ≤ 0x1F17F) || n = 0x1F18E || (0x1F191 ≤ n && n ≤ 0x1F19A) ||
  (0x1F1E0 ≤ n && n ≤ 0x1F1FF) || (0x1F201 ≤ n && n ≤ 0x1F202) || n = 0x1F21A ||
  n = 0x1F22F || (0x1F232 ≤ n && n ≤ 0x1F23A) || (0x1F250 ≤ n && n ≤ 0x1F251) ||
  (0x1F300 ≤ n && n ≤ 0x1F5FF) || (0x1F600 ≤ n && n ≤ 0x1F64F) ||
  (0x1F680 ≤ n && n ≤ 0x1F6FF) || (0x1F700 ≤ n && n ≤ 0x1F77F) ||
  (0x1F780 ≤ n && n ≤ 0x1F7FF) || (0x1F800 ≤ n && n ≤ 0x1F8FF) ||
  (0x1F900 ≤ n && n ≤ 0x1F9FF) || (0x1FA00 ≤ n && n ≤ 0x1FA6F) ||
  (0x1FA70 ≤ n && n ≤ 0x1FAFF) || (0x1FB00 ≤ n && n ≤ 0x1FBFF) ||
  (0x1FC00 ≤ n && n ≤ 0x1FCFF) || (0x1FD00 ≤ n && n ≤ 0x1FDFF) ||
  (0x1FE00 ≤ n && n ≤ 0x1FEFF) || (0x1FF00 ≤ n && n ≤ 0x1FFFF) ||
  (0x1F3FB ≤ n && n ≤ 0x1F3FF)

/-- The trailing-modifier class of `EmojiHandler.PATTERN`:
zero-width joiner or a variation selector. -/
def isEmojiMod (c : Char) : Bool :=
  c.toNat = 0x200D || (0xFE00 ≤ c.toNat && c.toNat ≤ 0xFE0F)

/-- `EmojiHandler.SEPARATOR_CHARS = '━─═—_-~·•'`. -/
def isSeparatorChar (c : Char) : Bool :=
  c = '━' || c = '─' || c = '═' || c = '—' || c = '_' || c = '-' ||
  c = '~' || c = '·' || c = '•'

/-- The segment emitted by `_split_separators` for one maximal run of
`count ≥ 1` copies of `c`: `no_wrap` when the run has length ≥ 3 and the
character is a separator, plain otherwise. -/
def runSegment (c : Char) (count : Nat) : TextSegment :=
  if 3 ≤ count && isSeparatorChar c then
    { text := List.replicate count c, no_wrap := true }
  else
    { text := List.replicate count c }

/-- The scanning loop of `_split_separators`, carrying the current run's
character and length: extend the run on a repeat, emit it otherwise. -/
def splitSepGo (c : Char) (count : Nat) : List Char → List TextSegment
  | [] => [runSegment c count]
  | d :: rest =>
    if d = c then splitSepGo c (count + 1) rest
    else runSegment c count :: splitSepGo d 1 rest

/-- `EmojiHandler._split_separators`: split a plain run into maximal
repeated-character runs; a run of length ≥ 3 of a separator character
becomes a `no_wrap` segment, anything else a plain segment. -/
def splitSeparators : List Char → List TextSegment
  | [] => []
  | c :: rest => splitSepGo c 1 rest

/-- The scanning loop of `EmojiHandler.split_text` over `PATTERN.finditer`:
`PATTERN` matches one base-emoji character followed by the greedily
consumed run of trailing modifiers (zero-width joiner / variation
selectors).  The scanner state is the current partial emoji match
(reversed, `some` while inside a match) plus the plain text accumulated
since the last match (`pending`); the plain text between matches goes
through `_split_separators`. -/
def emojiGo : Option (List Char) → List Char → List Char → List TextSegment
  | none, pending, [] => splitSeparators pending
  | some e, pending, [] =>
    splitSeparators pending ++ [{ text := e.reverse, is_emoji := true }]
  | none, pending, c :: rest =>
    if isEmojiBase c then emojiGo (some [c]) pending rest
    else emojiGo none (pending ++ [c]) rest
  | some e, pending, c :: rest =>
    if isEmojiMod c then emojiGo (some (c :: e)) pending rest
    else
      splitSeparators pending ++
        ({ text := e.reverse, is_emoji := true } : TextSegment) ::
          (if isEmojiBase c then emojiGo (some [c]) [] rest else emojiGo none [c] rest)

/-- `EmojiHandler.split_text`. -/
def splitText (text : List Char) : List TextSegment := emojiGo none [] text

/-! ### Inline style tokenizer (`_parse_inline_styles` in `core/markdown.py`)

Each entry of `INLINE_PATTERNS` is a regex of the shape `d(.+?)d` for a
one- or two-character delimiter `d`: an opening delimiter, a lazily
matched non-empty inner text without newlines, and a closing delimiter.
`re.search` finds the leftmost position admitting a match; the lazy
quantifier then takes the shortest inner text. -/

/-- The style tag attached to each pattern of `INLINE_PATTERNS`. -/
inductive Style
  | bold
  | italic
  | code
  | strike
deriving DecidableEq, Repr

/-- `_apply_style`. -/
def applyStyle (style : Style) (seg : TextSegment) : TextSegment :=
  match style with
  | .bold => { seg with bold := true }
  | .italic => { seg with italic := true }
  | .code => { seg with code := true }
  | .strike => { seg with strike := true }

/-- `INLINE_PATTERNS`, in the source's priority order (longest first). -/
def INLINE_PATTERNS : List (List Char × Style) :=
  [("**".data, .bold), ("__".data, .bold), ("~~".data, .strike), ("``".data, .code),
   ("*".data, .italic), ("_".data, .italic), ("`".data, .code)]

/-- The lazy search for the closing delimiter in `d(.+?)d`, entered after at
least one inner character has been consumed (held reversed in `acc`):
at each position, first try to close with `d`, otherwise consume one more
non-newline character. -/
def findClose (d : List Char) (acc : List Char) : List Char → Option (List Char × List Char)
  | [] => none
  | c :: rest =>
    if d.isPrefixOf (c :: rest) then some (acc.reverse, (c :: rest).drop d.length)
    else if c = '\n' then none
    else findClose d (c :: acc) rest

/-- Try to match `d(.+?)d` anchored at the current position: the opening
delimiter, then at least one non-newline inner character, then the lazy
scan for the closing delimiter.  Returns the inner text and the rest. -/
def tryMatchAt (d : List Char) (cs : List Char) : Option (List Char × List Char) :=
  if d.isPrefixOf cs then
    match cs.drop d.length with
    | [] => none
    | c :: rest => if c = '\n' then none else findClose d [c] rest
  else none

/-- `re.search` for `d(.+?)d`: the leftmost position admitting a match wins.
Returns `(pre, inner, post)` with the input equal to
`pre ++ d ++ inner ++ d ++ post`. -/
def searchDelim (d : List Char) : List Char → Option (List Char × List Char × List Char)
  | [] => none
  | c :: rest =>
    match tryMatchAt d (c :: rest) with
    | some (inner, post) => some ([], inner, post)
    | none => (searchDelim d rest).map fun (pre, inner, post) => (c :: pre, inner, post)

/-- A resolved earliest inline match: text before the match, the delimiter
and its style, the inner text, and the text after the match. -/
structure InlineMatch where
  pre : List Char
  delim : List Char
  style : Style
  inner : List Char
  post : List Char
deriving DecidableEq, Repr

/-- The pattern-selection loop of `_parse_recursive`: the earliest-starting
match across all patterns wins; ties are broken by pattern order
(strict `<` on the start position keeps the earlier-listed pattern). -/
def pickEarliest (pats : List (List Char × Style)) (cs : List Char) : Option InlineMatch :=
  pats.foldl
    (fun best (p : List Char × Style) =>
      match searchDelim p.1 cs with
      | none => best
      | some (pre, inner, post) =>
        match best with
        | none => some ⟨pre, p.1, p.2, inner, post⟩
        | some b => if pre.length < b.pre.length then some ⟨pre, p.1, p.2, inner, post⟩ else best)
    none

/-- The recursion of `_parse_recursive`, indexed by fuel for structural
recursion: take the earliest inline match, emit the unstyled text
before it, recursively tokenize the inner text adding the matched style
to every resulting segment, and continue after the match; when no
pattern matches, the (non-empty) remainder becomes one plain segment.
Fuel `cs.length` always suffices because each match strictly shrinks
the text (`parseRecursiveF_fuel_irrelevant` below), so the zero-fuel
branch is unreachable from `parseRecursive`. -/
def parseRecursiveF : Nat → List Char → List TextSegment
  | 0, _ => []
  | fuel + 1, cs =>
    match pickEarliest INLINE_PATTERNS cs with
    | none => if cs = [] then [] else [{ text := cs }]
    | some m =>
      (if m.pre = [] then [] else [({ text := m.pre } : TextSegment)]) ++
      (parseRecursiveF fuel m.inner).map (applyStyle m.style) ++
      parseRecursiveF fuel m.post

/-- `_parse_recursive`. -/
def parseRecursive (cs : List Char) : List TextSegment :=
  parseRecursiveF cs.length cs

/-- The merge condition of `_merge_segments`: both texts non-empty, neither
segment emoji or atomic, and every other attribute identical. -/
def mergeCompatible (last seg : TextSegment) : Bool :=
  !last.text.isEmpty && !seg.text.isEmpty &&
  !seg.is_emoji && !last.is_emoji &&
  !seg.no_wrap && !last.no_wrap &&
  last.heading == seg.heading &&
  last.quote == seg.quote &&
  last.code_block == seg.code_block &&
  last.horizontal_rule == seg.horizontal_rule &&
  last.bold == seg.bold &&
  last.italic == seg.italic &&
  last.code == seg.code &&
  last.strike == seg.strike &&
  last.list_item == seg.list_item &&
  last.list_ordered == seg.list_ordered &&
  last.list_level == seg.list_level &&
  last.list_index == seg.list_index &&
  last.list_continuation == seg.list_continuation

/-- The running merge of `_merge_segments`: each next segment either extends
the text of the last kept segment or starts a new one. -/
def mergeInto (last : TextSegment) : List TextSegment → List TextSegment
  | [] => [last]
  | s :: rest =>
    if mergeCompatible last s then mergeInto { last with text := last.text ++ s.text } rest
    else last :: mergeInto s rest

/-- `_merge_segments`. -/
def mergeSegments : List TextSegment → List TextSegment
  | [] => []
  | s :: rest => mergeInto s rest

/-- `_parse_inline_styles`. -/
def parseInlineStyles (text : List Char) : List TextSegment :=
  if text = [] then [] else mergeSegments (parseRecursive text)

/-! ### Markdown line parser (`parse_markdown` in `core/markdown.py`)

The per-line regexes are modelled directly.  Inputs are single lines:
the renderer always calls the parser on the pieces of
`text.split('\n')`, so the lines contain no newline character. -/

/-- `\w` (ASCII part): letter, digit or underscore. -/
def isWordChar (c : Char) : Bool := c.isAlpha || c.isDigit || c = '_'

/-- The regex `^```(\w*)\s*$` (opening fence): three backticks, an optional
language tag of word characters, optional trailing whitespace, nothing
else.  Returns the language tag on a match. -/
def fenceOpenMatch (text : List Char) : Option (List Char) :=
  if text.take 3 = ['`', '`', '`'] then
    let r := text.drop 3
    let lang := r.takeWhile isWordChar
    let rest := r.dropWhile isWordChar
    if rest.all isPySpace then some lang else none
  else none

/-- The horizontal-rule test `re.match(r'^[\s\-*_]{3,}\s*$', text.strip())`:
after stripping, at least three characters, all drawn from
whitespace, `-`, `*`, `_`. -/
def isRuleLine (text : List Char) : Bool :=
  let s := pyStrip text
  3 ≤ s.length && s.all (fun c => isPySpace c || c = '-' || c = '*' || c = '_')

/-- The table-row regex `^\|(.+)\|\s*$`: a leading `|`, a non-empty
newline-free body, a closing `|`, optional trailing whitespace.  The
greedy `(.+)` makes the closing bar the last `|` followed only by
whitespace.  Returns `group(1)` on a match. -/
def tableRowMatch (text : List Char) : Option (List Char) :=
  match text with
  | [] => none
  | c :: rest =>
    if c = '|' then
      let r := pyRstrip rest
      match r.getLast? with
      | none => none
      | some d =>
        if d = '|' then
          let body := r.dropLast
          if body ≠ [] && !body.contains '\n' then some body else none
        else none
    else none

/-- The separator-row test `re.match(r'^[\s\-:]+$', cells[0] if cells else '')`:
the FIRST trimmed cell is non-empty and made only of whitespace, `-`, `:`. -/
def isSeparatorRow (cells : List (List Char)) : Bool :=
  let c0 := (cells.head?).getD []
  c0 ≠ [] && c0.all (fun c => isPySpace c || c = '-' || c = ':')

/-- The cells of a matched table row: `group(1).strip()` split on `|`,
each cell trimmed. -/
def tableCellsOf (body : List Char) : List (List Char) :=
  (splitOnChar '|' (pyStrip body)).map pyStrip

/-- The `\s+(.+)$` tail shared by the heading and list regexes: at least one
whitespace character, then a non-empty remainder; the greedy whitespace
run leaves the remainder without leading whitespace unless the whole
tail is whitespace, in which case backtracking leaves exactly the last
character as content. -/
def spacePlusContent (rest : List Char) : Option (List Char) :=
  let content := rest.dropWhile isPySpace
  if content ≠ [] then
    if rest.takeWhile isPySpace ≠ [] then some content else none
  else if 2 ≤ rest.length then some [(rest.getLast?).getD ' '] else none

/-- The heading regex `^(#{1,6})\s+(.+)$`.  Returns the level and content. -/
def headingMatch (text : List Char) : Option (Nat × List Char) :=
  let hashes := text.takeWhile (· = '#')
  let n := hashes.length
  if 1 ≤ n && n ≤ 6 then
    (spacePlusContent (text.drop n)).map (fun content => (n, content))
  else none

/-- The unordered-list regex `^(\s*)([*+-])\s+(.+)$`.  Returns the leading
whitespace length and the content. -/
def unorderedMatch (text : List Char) : Option (Nat × List Char) :=
  let ws := text.takeWhile isPySpace
  match text.drop ws.length with
  | m :: rest =>
    if m = '*' || m = '+' || m = '-' then
      (spacePlusContent rest).map (fun content => (ws.length, content))
    else none
  | [] => none

/-- Decimal value of a digit run. -/
def digitsToNat (ds : List Char) : Nat :=
  ds.foldl (fun acc c => acc * 10 + (c.toNat - '0'.toNat)) 0

/-- The ordered-list regex `^(\s*)(\d+)\.\s+(.+)$`.  Returns the leading
whitespace length, the parsed ordinal and the content. -/
def orderedMatch (text : List Char) : Option (Nat × Nat × List Char) :=
  let ws := text.takeWhile isPySpace
  let afterWs := text.drop ws.length
  let digits := afterWs.takeWhile Char.isDigit
  if digits ≠ [] then
    match afterWs.drop digits.length with
    | '.' :: rest =>
      (spacePlusContent rest).map (fun content => (ws.length, digitsToNat digits, content))
    | _ => none
  else none

/-- The first pass of `_serialize_table`: the first row flagged as header
supplies the labels (a header row with no cells leaves them unset, as
an empty Python list is falsy); every other row, header or not, is a
data row. -/
def extractHeaderRows (hdrs : List (List Char)) (acc : List TableRow) :
    List TableRow → List (List Char) × List TableRow
  | [] => (hdrs, acc.reverse)
  | r :: rs =>
    if r.is_header && hdrs.isEmpty then
      extractHeaderRows (r.cells.map (·.text)) acc rs
    else
      extractHeaderRows hdrs (r :: acc) rs

/-- The default label `f"字段{i + 1}"` (1-indexed field name). -/
def defaultLabel (i : Nat) : List Char := "字段".data ++ (toString i).data

/-- The per-cell output of `_serialize_table`: a label segment
`"{label}："` with list attributes, then the cell's segments re-stamped
with the same list attributes — unless the cell has no visible text, in
which case only the label is emitted. -/
def cellChunk (headers : List (List Char)) (colIdx : Nat) (cell : TableCell) :
    List TextSegment :=
  let fieldName := if colIdx < headers.length then headers.getD colIdx [] else defaultLabel (colIdx + 1)
  let label : TextSegment :=
    { text := fieldName ++ "：".data, list_item := true, list_ordered := false, list_level := 0 }
  let content := cell.segments.map fun s =>
    { s with list_item := true, list_ordered := false, list_level := 0 }
  if !content.isEmpty && content.any (fun s => !s.text.isEmpty) then
    label :: content
  else [label]

/-- `_serialize_table`: flatten the buffered rows into "label：value"
pseudo list-items. -/
def serializeTable (rows : List TableRow) : List TextSegment :=
  if rows.isEmpty then []
  else
    let maxCols := rows.foldl (fun m r => max m r.cells.length) 0
    let (headers0, dataRows0) := extractHeaderRows [] [] rows
    let headers :=
      if headers0.isEmpty then (List.range maxCols).map (fun i => defaultLabel (i + 1))
      else headers0
    let dataRows := if dataRows0.isEmpty then rows else dataRows0
    dataRows.flatMap fun row =>
      (row.cells.enum).flatMap fun p => cellChunk headers p.1 p.2

/-- Reset the table part of the context, as done whenever a table closes. -/
def resetTable (ctx : LineContext) : LineContext :=
  { ctx with in_table := false, table_rows := [], table_header_parsed := false }

/-- `_parse_line`: the reduced re-parse used when a table is interrupted —
headings, quotes and inline styles only (no list handling). -/
def parseLineCont (text : List Char) : List TextSegment :=
  if text = [] then []
  else
    match headingMatch text with
    | some (level, content) =>
      (parseInlineStyles content).map fun s => { s with heading := level }
    | none =>
      match text with
      | '>' :: rest =>
        (parseInlineStyles (pyLstrip rest)).map fun s => { s with quote := true }
      | _ => parseInlineStyles text

/-- `parse_markdown`: one line plus carry-over state, in the source's
precedence order (empty line, fenced code block, opening fence, rule,
table row, table interruption, heading, quote, unordered list, ordered
list, plain inline). -/
def parseMarkdown (text : List Char) (ctx : LineContext) :
    List TextSegment × LineContext :=
  if text = [] then ([], ctx)
  else if ctx.in_code_block then
    if pyStrip text = ['`', '`', '`'] then
      (([{ text := List.intercalate ['\n'] ctx.code_lines, code_block := true, no_wrap := true }] :
          List TextSegment),
        { ctx with in_code_block := false, code_lines := [] })
    else ([], { ctx with code_lines := ctx.code_lines ++ [text] })
  else
    match fenceOpenMatch text with
    | some lang => ([], { ctx with in_code_block := true, code_block_lang := lang })
    | none =>
      if isRuleLine text then
        if ctx.in_table then (serializeTable ctx.table_rows, resetTable ctx)
        else ([({ text := [], horizontal_rule := true } : TextSegment)], ctx)
      else
        match tableRowMatch text with
        | some body =>
          let cells := tableCellsOf body
          if isSeparatorRow cells then ([], { ctx with table_header_parsed := true })
          else
            let row : TableRow :=
              { cells := cells.map (fun c => { text := c, segments := parseInlineStyles c }),
                is_header := !ctx.table_header_parsed }
            ([], { ctx with table_rows := ctx.table_rows ++ [row], in_table := true })
        | none =>
          if ctx.in_table then
            let tableSegments := serializeTable ctx.table_rows
            let segments := parseLineCont text
            (if segments.isEmpty then tableSegments
             else tableSegments ++ ({ text := [], horizontal_rule := false } : TextSegment) :: segments,
              resetTable ctx)
          else
            match headingMatch text with
            | some (level, content) =>
              ((parseInlineStyles content).map (fun s => { s with heading := level }), ctx)
            | none =>
              match text with
              | '>' :: rest =>
                ((parseInlineStyles (pyLstrip rest)).map (fun s => { s with quote := true }), ctx)
              | _ =>
                match unorderedMatch text with
                | some (indent, content) =>
                  let stamp := fun (s : TextSegment) =>
                    { s with list_item := true, list_ordered := false, list_level := indent / 2 }
                  ((parseInlineStyles content).map stamp, ctx)
                | none =>
                  match orderedMatch text with
                  | some (indent, index, content) =>
                    let stamp := fun (s : TextSegment) =>
                      { s with list_item := true, list_ordered := true, list_level := indent / 2, list_index := index }
                    ((parseInlineStyles content).map stamp, ctx)
                  | none => (parseInlineStyles text, ctx)

/-! ### Line layout and wrapping (`TextRenderer.render` in `core/renderer.py`)

The metrics provider (PIL fonts) is external per the spec; it is
modelled as abstract width functions.  A font handle is identified by
what selects it in the source: the base font, the per-level heading
font, or the monospace font. -/

/-- `NO_LINE_START`: punctuation that must not start a physical line. -/
def noLineStart (c : Char) : Bool :=
  c ∈ ("，。、；：？！）】》」』\",.;:?!)>]\x7d·…—～".data ++ ['\''])

/-- A font handle as selected in `render`: the base font, the heading font
for a given heading level, or the monospace font. -/
inductive FontKind
  | base
  | headingFont (level : Nat)
  | mono
deriving DecidableEq, Repr

/-- The external metrics provider: `_get_char_render_width(font, c, bold)`
(true drawn bounding width, with the bold compensation included),
`font.getlength` (advance width), and whether `_load_mono_font` found a
monospace font. -/
structure Metrics where
  renderW : FontKind → Char → Bool → Nat
  advW : FontKind → Char → Nat
  monoAvailable : Bool

/-- The font used for character width calculation in the wrap loop
(`calc_font`, renderer lines 281–288): the heading font when
`seg.heading` is set, else the monospace font for code when available,
else the base font. -/
def calcFontFor (m : Metrics) (seg : TextSegment) : FontKind :=
  if seg.heading ≠ 0 then .headingFont seg.heading
  else if (seg.code || seg.code_block) && m.monoAvailable then .mono
  else .base

/-- Sum of base-font render widths of a text
(`sum(self._get_char_render_width(font, c) for c in seg.text)`). -/
def sumBaseRenderW (m : Metrics) (text : List Char) : Nat :=
  (text.map (fun c => m.renderW .base c false)).sum

/-- The per-logical-line layout data of `_build_line_layout`. -/
structure LineLayout where
  quote_bar_width : Nat
  quote_offset : Nat
  list_ordered : Bool
  list_level : Nat
  list_index : Nat
  list_bullet_text : List Char
  list_bullet_width : Nat
  list_indent : Nat
  effective_width : Nat
deriving DecidableEq, Repr

/-- `_build_line_layout`: quote offset, list bullet text/width, clamped
list indent, and the usable content width for wrapping.  The Python
`max(0, a - b - …)` / `max(1, a - b)` patterns coincide with truncated
`Nat` subtraction (plus the final `max 1`). -/
def buildLineLayout (m : Metrics) (segments : List TextSegment)
    (text_area_width scale min_content_width : Nat) : LineLayout :=
  let quote_bar_width := 3 * scale
  let quote_offset := if segments.any (·.quote) then quote_bar_width + 4 * scale else 0
  let listInfo :=
    match segments.find? (·.list_item) with
    | some seg =>
      let bullet : List Char :=
        if seg.list_ordered then (toString seg.list_index).data ++ ['.'] else ['•']
      (seg.list_ordered, seg.list_level, seg.list_index, bullet,
        sumBaseRenderW m bullet + m.advW .base ' ')
    | none => (false, 0, 0, ([] : List Char), 0)
  let list_bullet_width := listInfo.2.2.2.2
  let list_indent_per_level := 20 * scale
  let raw_list_indent := listInfo.2.1 * list_indent_per_level
  let available_for_list :=
    text_area_width - quote_offset - list_bullet_width - min_content_width
  let list_indent := min raw_list_indent available_for_list
  let content_start_offset := quote_offset + list_indent + list_bullet_width
  let effective_width := max 1 (text_area_width - content_start_offset)
  { quote_bar_width := quote_bar_width
    quote_offset := quote_offset
    list_ordered := listInfo.1
    list_level := listInfo.2.1
    list_index := listInfo.2.2.1
    list_bullet_text := listInfo.2.2.2.1
    list_bullet_width := list_bullet_width
    list_indent := list_indent
    effective_width := effective_width }

/-- The running state of the wrapping loop in `render`: the physical lines
emitted so far for the current logical line, the line being built, the
horizontal position, and the `list_continuation_active` flag. -/
structure WrapSt where
  items : List (List (TextSegment × Nat))
  line : List (TextSegment × Nat)
  x : Nat
  cont : Bool
deriving Repr

/-- `for prev_seg, _ in line_segments: prev_seg.list_continuation = True`. -/
def markContinuation (l : List (TextSegment × Nat)) : List (TextSegment × Nat) :=
  l.map fun p => ({ p.1 with list_continuation := true }, p.2)

/-- The shared wrap step of the emoji and `no_wrap` branches: if the unit
overflows (`current_x + w > effective_width - 2`, stated additively)
and the line is non-empty, mark continuations, flush and reset, then
place the unit.  Python's `current_x + w > effective_width - 2` over
ints equals `current_x + w + 2 > effective_width` since all quantities
are non-negative. -/
def atomicStep (eff : Nat) (listIsItem : Bool) (seg : TextSegment) (w : Nat)
    (st : WrapSt) : WrapSt :=
  if st.x + w + 2 > eff && st.x > 0 then
    let flushed := if listIsItem && st.cont then markContinuation st.line else st.line
    { items := st.items ++ [flushed], line := [(seg, w)], x := w,
      cont := listIsItem || st.cont }
  else
    { st with line := st.line ++ [(seg, w)], x := st.x + w }

/-- The single-character segment built at renderer lines 317–328: the
style, line and list attributes are copied from the source segment and
`list_continuation` is the current flag (the omitted constructor
arguments default to false, as in the Python call). -/
def charSegOf (seg : TextSegment) (c : Char) (cont : Bool) : TextSegment :=
  { text := [c], bold := seg.bold, italic := seg.italic, code := seg.code,
    strike := seg.strike, heading := seg.heading, quote := seg.quote,
    list_item := seg.list_item, list_ordered := seg.list_ordered,
    list_level := seg.list_level, list_index := seg.list_index,
    list_continuation := cont }

/-- The character-by-character wrapping loop for a non-atomic segment
(renderer lines 290–329): per character, compute `need_wrap`
(suppressed for `NO_LINE_START` characters); when exactly two
characters remain, the line is non-empty and both would overflow,
flush early without marking continuations; on a normal wrap, mark
continuations, flush, and raise the continuation flag; then append the
character with the current continuation flag. -/
def charStepOne (eff : Nat) (listIsItem : Bool) (seg : TextSegment)
    (cw : Char → Nat) (c : Char) (rest : List Char) (st : WrapSt) : WrapSt :=
  let w := cw c
  let needWrap := (st.x + w + 2 > eff && st.x > 0) && !noLineStart c
  let st1 :=
    if !needWrap then
      match rest with
      | [next] =>
        if !st.line.isEmpty && st.x + w + cw next + 2 > eff then
          { st with items := st.items ++ [st.line], line := [], x := 0 }
        else st
      | _ => st
    else st
  let st2 :=
    if needWrap then
      let flushed := if listIsItem && st1.cont then markContinuation st1.line else st1.line
      { items := st1.items ++ [flushed], line := [], x := 0,
        cont := listIsItem || st1.cont }
    else st1
  { st2 with line := st2.line ++ [(charSegOf seg c st2.cont, w)], x := st2.x + w }

def charStep (eff : Nat) (listIsItem : Bool) (seg : TextSegment)
    (cw : Char → Nat) : List Char → WrapSt → WrapSt
  | [], st => st
  | c :: rest, st =>
    charStep eff listIsItem seg cw rest (charStepOne eff listIsItem seg cw c rest st)

/-- One iteration of `for seg in segments` in the wrap phase: `code_block`
segments are appended with their base-font width without any wrap check
(and without advancing `current_x`); emoji are atomic with width
`emoji_size`; `no_wrap` segments are atomic with their base-font text
width; everything else wraps character by character under `calc_font`. -/
def procSeg (m : Metrics) (eff emoji_size : Nat) (listIsItem : Bool)
    (st : WrapSt) (seg : TextSegment) : WrapSt :=
  if seg.code_block then
    { st with line := st.line ++ [(seg, sumBaseRenderW m seg.text)] }
  else if seg.is_emoji then
    atomicStep eff listIsItem seg emoji_size st
  else if seg.no_wrap then
    atomicStep eff listIsItem seg (sumBaseRenderW m seg.text) st
  else
    charStep eff listIsItem seg (fun c => m.renderW (calcFontFor m seg) c seg.bold)
      seg.text st

/-- The wrap phase of `render` for one logical line's segments: compute the
layout, fold the wrapping loop, and flush the trailing physical line
(marking continuations when the flag is up).  Returns the physical
lines, each an ordered list of (segment, measured width) pairs. -/
def wrapLogicalLine (m : Metrics) (text_area_width scale emoji_size : Nat)
    (segments : List TextSegment) : List (List (TextSegment × Nat)) :=
  let listIsItem := segments.any (·.list_item)
  let layout := buildLineLayout m segments text_area_width scale (max 20 emoji_size)
  let eff := layout.effective_width
  let st := segments.foldl (procSeg m eff emoji_size listIsItem) ⟨[], [], 0, false⟩
  if st.line.isEmpty then st.items
  else
    st.items ++ [if listIsItem && st.cont then markContinuation st.line else st.line]

/-- Python `str.split('\n')` over a character list. -/
def splitOnNewline (text : List Char) : List (List Char) := splitOnChar '\n' text

/-- The segment-preprocessing loop of `render` (lines 188–227): code-block
segments are emoji-split per buffered line, keeping `code_block` and
`no_wrap` except on emoji; other non-empty segments are emoji-split and
every piece explicitly inherits the style, line and list attributes
(emoji never inherit `code`); empty non-emoji segments pass through. -/
def preprocessSegments (mdSegments : List TextSegment) : List TextSegment :=
  mdSegments.flatMap fun seg =>
    if seg.code_block then
      (splitOnNewline seg.text).flatMap fun codeLine =>
        (splitText codeLine).map fun es =>
          if es.is_emoji then { es with code_block := false, no_wrap := false }
          else { es with code_block := true, no_wrap := true }
    else if !seg.text.isEmpty then
      (splitText seg.text).map fun es =>
        { es with
          bold := seg.bold, italic := seg.italic, strike := seg.strike,
          code := if es.is_emoji then false else seg.code,
          heading := seg.heading, quote := seg.quote,
          code_block := seg.code_block, horizontal_rule := seg.horizontal_rule,
          list_item := seg.list_item, list_ordered := seg.list_ordered,
          list_level := seg.list_level, list_index := seg.list_index,
          list_continuation := seg.list_continuation }
    else if !seg.is_emoji then [seg]
    else []

/-- The bullet decision of the paint phase (renderer lines 406–470): for a
physical line, the layout is recomputed from the line's own segments;
the bullet is drawn iff the layout has a bullet and no segment of the
line is a continuation. -/
def bulletDrawnOn (m : Metrics) (text_area_width scale emoji_size : Nat)
    (line : List (TextSegment × Nat)) : Bool :=
  let layout := buildLineLayout m (line.map (·.1)) text_area_width scale (max 20 emoji_size)
  !layout.list_bullet_text.isEmpty && !(line.any (·.1.list_continuation))

/-- Number of bullets painted over a list of physical lines. -/
def bulletCount (m : Metrics) (text_area_width scale emoji_size : Nat)
    (lines : List (List (TextSegment × Nat))) : Nat :=
  (lines.filter (bulletDrawnOn m text_area_width scale emoji_size)).length

/-! ### Emoji painting fallback (`render` lines 472–485, `render_emoji`) -/

/-- A paint operation issued for one segment of a physical line. -/
inductive PaintOp (B : Type)
  | pasteBitmap (bitmap : B) (text : List Char) (x : Nat)
  | drawText (text : List Char) (x : Nat)
deriving DecidableEq, Repr

/-- The emoji branch of the paint loop (renderer lines 472–485): with a
bitmap, paste it and advance by the layout width; without one, draw the
raw emoji text with the base font and advance by that text's measured
width (`font.getlength`).  Non-emoji segments draw their text and
advance by the layout width. -/
def paintSegStep {B : Type} (provider : List Char → Option B)
    (advTextW : List Char → Nat) (seg : TextSegment) (w x : Nat) :
    PaintOp B × Nat :=
  if seg.is_emoji then
    match provider seg.text with
    | some bmp => (.pasteBitmap bmp seg.text x, x + w)
    | none => (.drawText seg.text x, x + advTextW seg.text)
  else (.drawText seg.text x, x + w)

/-- Painting a whole physical line: fold `paintSegStep` left to right. -/
def paintLine {B : Type} (provider : List Char → Option B)
    (advTextW : List Char → Nat) :
    List (TextSegment × Nat) → Nat → List (PaintOp B) × Nat
  | [], x => ([], x)
  | (seg, w) :: rest, x =>
    let (op, x') := paintSegStep provider advTextW seg w x
    let (ops, xf) := paintLine provider advTextW rest x'
    (op :: ops, xf)

/-- The CDN download loop of `EmojiHandler.render_emoji` (steps 5–6): try
each candidate URL in order; every fetch failure is caught and the next
URL is tried; if all fail the failure is recorded and `None` is
returned (never an exception). -/
def fetchFirst {B : Type} (fetch : String → Option B) : List String → Option B
  | [] => none
  | url :: rest =>
    match fetch url with
    | some bmp => some bmp
    | none => fetchFirst fetch rest

/-! ### Quantities and concrete instances used by the theorems -/

/-- Concatenation, in order, of the texts of a segment list. -/
def textConcat (segs : List TextSegment) : List Char := segs.flatMap (·.text)

/-- Sum of the measured widths placed on one physical line. -/
def lineWidthSum (line : List (TextSegment × Nat)) : Nat := (line.map (·.2)).sum

/-- The cross-line state invariant: buffered fence lines exist only while a
fenced block is open, buffered table rows only while a table is open. -/
def ctxInvariant (ctx : LineContext) : Prop :=
  (ctx.in_code_block = false → ctx.code_lines = []) ∧
  (ctx.in_table = false → ctx.table_rows = [])

/-- The invariant of the wrapping loop: all emitted physical lines are
within bounds or singletons, `current_x` tracks the width of the line
being built, the line being built is itself within bounds or at most a
singleton, and every placed unit has positive width. -/
def WrapInv (eff : Nat) (st : WrapSt) : Prop :=
  (∀ L ∈ st.items, lineWidthSum L + 2 ≤ eff ∨ L.length = 1) ∧
  st.x = lineWidthSum st.line ∧
  (lineWidthSum st.line + 2 ≤ eff ∨ st.line.length ≤ 1) ∧
  (∀ p ∈ st.line, 1 ≤ p.2)

/-- A parser state inside a fenced code block with one buffered line. -/
def cexCodeBlockCtx : LineContext := { in_code_block := true, code_lines := [['x']] }

/-- A parser state with an open one-row table (obtained by feeding `|v|`). -/
def cexOpenTableCtx : LineContext := (parseMarkdown "|v|".data {}).2

/-- The buffered rows of the specified table round trip, with the first row
flagged as header and the cells tokenized as `parse_markdown` buffers them. -/
def sampleTableRows : List TableRow :=
  [{ cells := [{ text := "Name".data, segments := parseInlineStyles "Name".data },
               { text := "Age".data, segments := parseInlineStyles "Age".data }],
     is_header := true },
   { cells := [{ text := "Alice".data, segments := parseInlineStyles "Alice".data },
               { text := "30".data, segments := parseInlineStyles "30".data }],
     is_header := false },
   { cells := [{ text := "Bob".data, segments := parseInlineStyles "Bob".data },
               { text := "25".data, segments := parseInlineStyles "25".data }],
     is_header := false }]

/-- A metrics instance where `W` is 20 pixels wide in every font. -/
def wideCharMetrics : Metrics :=
  { renderW := fun _ c _ => if c = 'W' then 20 else 1,
    advW := fun _ _ => 1,
    monoAvailable := false }

/-- A single plain one-character segment, wider than the usable width. -/
def wideCharSegments : List TextSegment := [{ text := ['W'] }]

/-- The physical lines the wrap loop produces for the wide plain character
at text area width 10. -/
def wideCharLines : List (List (TextSegment × Nat)) :=
  wrapLogicalLine wideCharMetrics 10 1 20 wideCharSegments

/-- A metrics instance for the list-continuation scenario. -/
def listWrapMetrics : Metrics :=
  { renderW := fun _ c _ =>
      if c = 'a' then 3 else if c = 'b' then 2 else if c = 'c' then 3
      else if c = '•' then 2 else 1,
    advW := fun _ c => if c = ' ' then 2 else 1,
    monoAvailable := false }

/-- The fully preprocessed segments of the list-item line `- aabbcc`
(markdown parse, emoji split, attribute inheritance), as the renderer
builds them before wrapping. -/
def listWrapSegments : List TextSegment :=
  preprocessSegments (parseMarkdown "- aabbcc".data {}).1

/-- The physical lines the wrap loop produces for `- aabbcc` at text area
width 14 (usable width 10 after the bullet). -/
def listWrapLines : List (List (TextSegment × Nat)) :=
  wrapLogicalLine listWrapMetrics 14 1 20 listWrapSegments

/-- The composite emoji `U+1F468 ZWJ U+1F469 VS-16`: a base emoji
codepoint, a zero-width joiner, a further emoji codepoint, a trailing
variation selector. -/
def zwjComposite : List Char :=
  [Char.ofNat 0x1F468, Char.ofNat 0x200D, Char.ofNat 0x1F469, Char.ofNat 0xFE0F]

/-! ### Supporting lemmas -/

theorem findClose_eq (d : List Char) (inner post : List Char) :
    ∀ cs acc, findClose d acc cs = some (inner, post) →
      acc.reverse ++ cs = inner ++ d ++ post := by
  intro cs
  induction cs with
  | nil => intro acc h; simp [findClose] at h
  | cons c rest ih =>
    intro acc h
    simp only [findClose] at h
    split at h
    · rename_i hpre
      obtain ⟨t, ht⟩ := (List.isPrefixOf_iff_prefix.mp hpre)
      simp only [Option.some.injEq, Prod.mk.injEq] at h
      obtain ⟨h1, h2⟩ := h
      rw [← ht, List.drop_left] at h2
      rw [← ht, ← h1, ← h2]
      simp [List.append_assoc]
    · split at h
      · exact absurd h (by simp)
      · have := ih (c :: acc) h
        simpa [List.append_assoc] using this

theorem tryMatchAt_eq (d : List Char) (cs inner post : List Char)
    (h : tryMatchAt d cs = some (inner, post)) :
    cs = d ++ inner ++ d ++ post := by
  simp only [tryMatchAt] at h
  split at h
  · rename_i hpre
    obtain ⟨t, ht⟩ := (List.isPrefixOf_iff_prefix.mp hpre)
    rw [← ht, List.drop_left] at h
    cases t with
    | nil => simp at h
    | cons c rest =>
      simp only at h
      split at h
      · exact absurd h (by simp)
      · have hc := findClose_eq d inner post rest [c] h
        simp only [List.reverse_cons, List.reverse_nil, List.nil_append,
          List.singleton_append] at hc
        rw [← ht, hc]
        simp [List.append_assoc]
  · exact absurd h (by simp)

theorem searchDelim_eq (d inner post : List Char) :
    ∀ cs pre, searchDelim d cs = some (pre, inner, post) →
      cs = pre ++ d ++ inner ++ d ++ post := by
  intro cs
  induction cs with
  | nil => intro pre h; simp [searchDelim] at h
  | cons c rest ih =>
    intro pre h
    simp only [searchDelim] at h
    split at h
    · rename_i inner1 post1 htry
      simp only [Option.some.injEq, Prod.mk.injEq] at h
      obtain ⟨h1, h2, h3⟩ := h
      have hm := tryMatchAt_eq d (c :: rest) inner1 post1 htry
      rw [← h1, ← h2, ← h3]
      simpa using hm
    · rename_i hnone
      simp only [Option.map_eq_some'] at h
      obtain ⟨⟨pre', inner', post'⟩, hs, heq⟩ := h
      simp only [Prod.mk.injEq] at heq
      obtain ⟨h1, h2, h3⟩ := heq
      subst h2 h3
      have := ih pre' hs
      rw [← h1, this]
      simp [List.append_assoc]

theorem pickEarliest_eq (pats : List (List Char × Style)) (cs : List Char) (m : InlineMatch)
    (h : pickEarliest pats cs = some m) :
    (m.delim, m.style) ∈ pats ∧ cs = m.pre ++ m.delim ++ m.inner ++ m.delim ++ m.post := by
  suffices H : ∀ (l : List (List Char × Style)) (best : Option InlineMatch),
      (∀ m', best = some m' →
        (m'.delim, m'.style) ∈ pats ∧ cs = m'.pre ++ m'.delim ++ m'.inner ++ m'.delim ++ m'.post) →
      (∀ p ∈ l, p ∈ pats) →
      ∀ m', (l.foldl
        (fun best (p : List Char × Style) =>
          match searchDelim p.1 cs with
          | none => best
          | some (pre, inner, post) =>
            match best with
            | none => some ⟨pre, p.1, p.2, inner, post⟩
            | some b => if pre.length < b.pre.length then some ⟨pre, p.1, p.2, inner, post⟩ else best)
        best) = some m' →
        (m'.delim, m'.style) ∈ pats ∧ cs = m'.pre ++ m'.delim ++ m'.inner ++ m'.delim ++ m'.post by
    exact H pats none (by intro m' hm'; simp at hm') (by intro p hp; exact hp) m h
  intro l
  induction l with
  | nil => intro best hbest _ m' hm'; exact hbest m' hm'
  | cons p rest ih =>
    intro best hbest hsub m' hm'
    simp only [List.foldl_cons] at hm'
    refine ih _ ?_ (fun q hq => hsub q (List.mem_cons_of_mem _ hq)) m' hm'
    intro m'' hm''
    split at hm''
    · exact hbest m'' hm''
    · rename_i pre inner post hs
      have hmem : p ∈ pats := hsub p (List.mem_cons_self _ _)
      have heq := searchDelim_eq p.1 inner post cs pre hs
      split at hm''
      · injection hm'' with h1; subst h1; exact ⟨hmem, heq⟩
      · split at hm''
        · injection hm'' with h1; subst h1; exact ⟨hmem, heq⟩
        · exact hbest m'' hm''

theorem INLINE_PATTERNS_delim_ne_nil (d : List Char) (s : Style)
    (h : (d, s) ∈ INLINE_PATTERNS) : d ≠ [] := by
  fin_cases h <;> decide

theorem pickEarliest_shrinks (cs : List Char) (m : InlineMatch)
    (h : pickEarliest INLINE_PATTERNS cs = some m) :
    m.inner.length + 2 ≤ cs.length ∧ m.post.length + 2 ≤ cs.length := by
  obtain ⟨hmem, heq⟩ := pickEarliest_eq _ _ _ h
  have hd : m.delim ≠ [] := INLINE_PATTERNS_delim_ne_nil _ _ hmem
  have hlen := congrArg List.length heq
  simp only [List.length_append] at hlen
  have : 0 < m.delim.length := List.length_pos.mpr hd
  omega

theorem parseRecursiveF_fuel_irrelevant :
    ∀ fuel fuel' cs, cs.length ≤ fuel → cs.length ≤ fuel' →
      parseRecursiveF fuel cs = parseRecursiveF fuel' cs := by
  intro fuel
  induction fuel with
  | zero =>
    intro fuel' cs hf hf'
    have hcs : cs = [] := List.length_eq_zero.mp (Nat.le_zero.mp hf)
    subst hcs
    cases fuel' with
    | zero => rfl
    | succ k =>
      have hnone : pickEarliest INLINE_PATTERNS [] = none := by decide
      simp [parseRecursiveF, hnone]
  | succ fuel ih =>
    intro fuel' cs hf hf'
    cases fuel' with
    | zero =>
      have hcs : cs = [] := List.length_eq_zero.mp (Nat.le_zero.mp hf')
      subst hcs
      have hnone : pickEarliest INLINE_PATTERNS [] = none := by decide
      simp [parseRecursiveF, hnone]
    | succ k =>
      cases hp : pickEarliest INLINE_PATTERNS cs with
      | none => simp only [parseRecursiveF, hp]
      | some m =>
        obtain ⟨hinner, hpost⟩ := pickEarliest_shrinks cs m hp
        simp only [parseRecursiveF, hp]
        rw [ih k m.inner (by omega) (by omega), ih k m.post (by omega) (by omega)]

theorem dropWhile_append_singleton {p : Char → Bool} (c : Char) (hc : p c = false) :
    ∀ l : List Char, ∃ l', (l ++ [c]).dropWhile p = l' ++ [c] := by
  intro l
  induction l with
  | nil => exact ⟨[], by simp [List.dropWhile, hc]⟩
  | cons a l2 ih =>
    by_cases ha : p a = true
    · simpa [List.dropWhile, ha] using ih
    · exact ⟨a :: l2, by simp [List.dropWhile, ha]⟩

theorem pyStrip_head_not_space (c : Char) (rest : List Char) (hc : isPySpace c = false) :
    ∃ t, pyStrip (c :: rest) = c :: t := by
  unfold pyStrip pyLstrip pyRstrip
  rw [List.dropWhile_cons]
  simp only [hc, Bool.false_eq_true, if_false, List.reverse_cons]
  obtain ⟨l', hl'⟩ := dropWhile_append_singleton c hc rest.reverse
  rw [hl']
  exact ⟨l'.reverse, by simp⟩

theorem tableRow_excludes_other_rules (text body : List Char)
    (h : tableRowMatch text = some body) :
    text ≠ [] ∧ fenceOpenMatch text = none ∧ isRuleLine text = false := by
  cases text with
  | nil => simp [tableRowMatch] at h
  | cons c rest =>
    simp only [tableRowMatch] at h
    by_cases hbar : c = '|'
    · subst hbar
      refine ⟨by simp, ?_, ?_⟩
      · simp [fenceOpenMatch, List.take_succ_cons]
      · obtain ⟨t, ht⟩ := pyStrip_head_not_space '|' rest (by decide)
        have hbar : (isPySpace '|' || decide ('|' = '-') || decide ('|' = '*') ||
            decide ('|' = '_')) = false := by decide
        simp only [isRuleLine, ht, List.all_cons, hbar, Bool.false_and, Bool.and_false]
    · simp [hbar] at h

/-!
**C2** — inside a fenced code block, only the closing-fence line emits the
buffered block; but an empty line is returned without being buffered,
because the empty-input early return precedes the code-block branch.
-/

/-- C2, counterexample: inside a fenced code block with one buffered line,
`parse_markdown` on an empty line returns no segments and leaves the
buffer unchanged — the empty line is NOT appended verbatim to the
buffer, contradicting the claim's "on every other line, including an
empty line, it appends that line verbatim to the buffer". -/
theorem claim2_counterexample :
    cexCodeBlockCtx.in_code_block = true ∧
    (parseMarkdown [] cexCodeBlockCtx).1 = [] ∧
    (parseMarkdown [] cexCodeBlockCtx).2.code_lines = [['x']] ∧
    (parseMarkdown [] cexCodeBlockCtx).2.code_lines ≠ [['x'], []] := by
  decide

/-- C2 (amended): for every parser state inside a fenced code block, a line
consisting solely of a closing fence (after stripping) ends the block
and returns exactly one segment whose text is the buffered lines joined
by newlines, with `code_block = true` and `no_wrap = true`; every other
NON-EMPTY line is appended verbatim to the buffer with no output; an
EMPTY line returns the empty sequence and leaves the buffer unchanged
(blank lines are dropped from fenced code blocks). -/
theorem claim2_amended (text : List Char) (ctx : LineContext)
    (h : ctx.in_code_block = true) :
    parseMarkdown text ctx =
      if text = [] then ([], ctx)
      else if pyStrip text = ['`', '`', '`'] then
        (([{ text := List.intercalate ['\n'] ctx.code_lines, code_block := true,
             no_wrap := true }] : List TextSegment),
          { ctx with in_code_block := false, code_lines := [] })
      else ([], { ctx with code_lines := ctx.code_lines ++ [text] }) := by
  simp only [parseMarkdown, h, if_true]

/-- C2 witness: the amended statement evaluated at the closing fence and at
a buffering line. -/
theorem claim2_amended_witness :
    parseMarkdown "```".data cexCodeBlockCtx =
      (([{ text := ['x'], code_block := true, no_wrap := true }] : List TextSegment),
        { cexCodeBlockCtx with in_code_block := false, code_lines := [] }) ∧
    parseMarkdown "y".data cexCodeBlockCtx =
      ([], { cexCodeBlockCtx with code_lines := [['x'], ['y']] }) := by
  constructor
  · rw [claim2_amended "```".data cexCodeBlockCtx (by decide)]
    decide
  · rw [claim2_amended "y".data cexCodeBlockCtx (by decide)]
    decide

/-!
**C3** — the separator-row detection for `|...|` lines inspects only the
first trimmed cell, not every cell.
-/

/-- C3, counterexample: the line `|--|xyz|` has a second trimmed cell
(`xyz`) containing characters other than space, `-`, `:`, yet
`parse_markdown` marks the header as parsed and buffers nothing —
contradicting the claim that such a row is instead buffered as a
`TableRow`. -/
theorem claim3_counterexample :
    (parseMarkdown "|--|xyz|".data {}).1 = [] ∧
    (parseMarkdown "|--|xyz|".data {}).2.table_header_parsed = true ∧
    (parseMarkdown "|--|xyz|".data {}).2.table_rows = [] ∧
    tableCellsOf ((tableRowMatch "|--|xyz|".data).getD []) = ["--".data, "xyz".data] ∧
    ¬("xyz".data.all fun c => isPySpace c || c = '-' || c = ':') := by
  decide

/-- C3 (amended): for every line matched by the table-row pattern `|...|`
(with the parser not inside a fenced code block), `parse_markdown`
marks the header as parsed and returns the empty sequence if and only
if the FIRST trimmed cell is non-empty and consists only of space, `-`
and `:` characters — the remaining cells are not inspected; otherwise
the row is buffered as a `TableRow` (header iff no separator row seen
yet) and the table is opened. -/
theorem claim3_amended (text body : List Char) (ctx : LineContext)
    (hcb : ctx.in_code_block = false)
    (h : tableRowMatch text = some body) :
    parseMarkdown text ctx =
      if isSeparatorRow (tableCellsOf body) then
        ([], { ctx with table_header_parsed := true })
      else
        ([], { ctx with
                table_rows := ctx.table_rows ++
                  [{ cells := (tableCellsOf body).map
                       (fun c => { text := c, segments := parseInlineStyles c }),
                     is_header := !ctx.table_header_parsed }],
                in_table := true }) := by
  obtain ⟨hne, hfence, hrule⟩ := tableRow_excludes_other_rules text body h
  simp only [parseMarkdown, if_neg hne, hcb, Bool.false_eq_true, if_false, hfence,
    hrule, h]

/-- C3 witness: the amended statement evaluated at a separator row (header
marked) and at an ordinary row (row buffered). -/
theorem claim3_amended_witness :
    parseMarkdown "| --- |".data {} = ([], { table_header_parsed := true }) ∧
    parseMarkdown "|v|".data {} =
      ([], { table_rows := [{ cells := [{ text := ['v'],
                                          segments := [{ text := ['v'] }] }],
                              is_header := true }],
             in_table := true }) := by
  constructor
  · rw [claim3_amended "| --- |".data " --- ".data {} (by decide) (by decide)]
    decide
  · rw [claim3_amended "|v|".data ['v'] {} (by decide) (by decide)]
    decide

/-!
**C10** — the cross-line state invariant of `LineContext`.
-/

/-- C10: starting from a freshly constructed `LineContext`, the invariant —
`code_lines` empty whenever not inside a fenced block, `table_rows`
empty whenever no table is open — holds initially and is preserved by
every `parse_markdown` call. -/
theorem claim10_state_invariant :
    ctxInvariant {} ∧
    ∀ text ctx, ctxInvariant ctx → ctxInvariant (parseMarkdown text ctx).2 := by
  refine ⟨⟨fun _ => rfl, fun _ => rfl⟩, ?_⟩
  intro text ctx h
  obtain ⟨h1, h2⟩ := h
  unfold parseMarkdown
  repeat' split
  all_goals simp_all [ctxInvariant, resetTable]
  all_goals repeat' split
  all_goals simp_all

/-- C10 witness: the invariant evaluated along a concrete run (a table row,
then an opening fence). -/
theorem claim10_state_invariant_witness :
    ctxInvariant (parseMarkdown "|a|".data {}).2 ∧
    ctxInvariant (parseMarkdown "```".data (parseMarkdown "|a|".data {}).2).2 := by
  constructor
  · exact claim10_state_invariant.2 "|a|".data {} claim10_state_invariant.1
  · exact claim10_state_invariant.2 "```".data _
      (claim10_state_invariant.2 "|a|".data {} claim10_state_invariant.1)

theorem applyStyle_list_item (style : Style) (s : TextSegment) :
    (applyStyle style s).list_item = s.list_item := by
  cases style <;> rfl

theorem parseRecursiveF_no_list_item :
    ∀ fuel cs s, s ∈ parseRecursiveF fuel cs → s.list_item = false := by
  intro fuel
  induction fuel with
  | zero => intro cs s hs; simp [parseRecursiveF] at hs
  | succ fuel ih =>
    intro cs s hs
    simp only [parseRecursiveF] at hs
    cases hp : pickEarliest INLINE_PATTERNS cs with
    | none =>
      rw [hp] at hs
      simp only at hs
      split at hs
      · simp at hs
      · rw [List.mem_singleton.mp hs]
    | some m =>
      rw [hp] at hs
      simp only [List.mem_append] at hs
      rcases hs with (hs | hs) | hs
      · split at hs
        · simp at hs
        · rw [List.mem_singleton.mp hs]
      · obtain ⟨u, hu, rfl⟩ := List.mem_map.mp hs
        rw [applyStyle_list_item]
        exact ih m.inner u hu
      · exact ih m.post s hs

theorem mergeInto_no_list_item :
    ∀ rest last, last.list_item = false → (∀ s ∈ rest, s.list_item = false) →
      ∀ s ∈ mergeInto last rest, s.list_item = false := by
  intro rest
  induction rest with
  | nil =>
    intro last hl _ s hs
    rw [List.mem_singleton.mp hs]
    exact hl
  | cons a rest ih =>
    intro last hl hrest s hs
    simp only [mergeInto] at hs
    split at hs
    · exact ih { last with text := last.text ++ a.text } hl
        (fun t ht => hrest t (List.mem_cons_of_mem _ ht)) s hs
    · rcases List.mem_cons.mp hs with rfl | hs'
      · exact hl
      · exact ih a (hrest a (List.mem_cons_self _ _))
          (fun t ht => hrest t (List.mem_cons_of_mem _ ht)) s hs'

theorem parseInlineStyles_no_list_item (t : List Char) :
    ∀ s ∈ parseInlineStyles t, s.list_item = false := by
  intro s hs
  simp only [parseInlineStyles] at hs
  split at hs
  · simp at hs
  · cases hp : parseRecursive t with
    | nil => rw [hp] at hs; simp [mergeSegments] at hs
    | cons a rest =>
      rw [hp] at hs
      simp only [mergeSegments] at hs
      unfold parseRecursive at hp
      refine mergeInto_no_list_item rest a ?_ ?_ s hs
      · exact parseRecursiveF_no_list_item t.length t a (hp ▸ List.mem_cons_self a rest)
      · intro u hu
        exact parseRecursiveF_no_list_item t.length t u (hp ▸ List.mem_cons_of_mem _ hu)

theorem parseLineCont_no_list_item (text : List Char) :
    ∀ s ∈ parseLineCont text, s.list_item = false := by
  intro s hs
  simp only [parseLineCont] at hs
  split at hs
  · simp at hs
  · split at hs
    · obtain ⟨u, hu, rfl⟩ := List.mem_map.mp hs
      exact parseInlineStyles_no_list_item _ u hu
    · split at hs
      · obtain ⟨u, hu, rfl⟩ := List.mem_map.mp hs
        exact parseInlineStyles_no_list_item _ u hu
      · exact parseInlineStyles_no_list_item _ s hs

/-!
**C6** — the table round trip through `_serialize_table`.
-/

/-- C6: flattening the buffered rows `[["Name","Age"],["Alice","30"],["Bob","25"]]`
with the first row flagged as header produces, in order, `"Name："`,
`"Alice"`, `"Age："`, `"30"`, `"Name："`, `"Bob"`, `"Age："`, `"25"`,
every emitted segment stamped `is_list_item = true`,
`is_ordered = false`, `indent_level = 0`; and for every data row, a
cell all of whose segments have empty text yields only its label
segment. -/
theorem claim6_table_roundtrip :
    serializeTable sampleTableRows =
      ([{ text := "Name：".data, list_item := true },
        { text := "Alice".data, list_item := true },
        { text := "Age：".data, list_item := true },
        { text := "30".data, list_item := true },
        { text := "Name：".data, list_item := true },
        { text := "Bob".data, list_item := true },
        { text := "Age：".data, list_item := true },
        { text := "25".data, list_item := true }] : List TextSegment) ∧
    (serializeTable sampleTableRows).map
        (fun s => (s.list_item, s.list_ordered, s.list_level)) =
      List.replicate 8 (true, false, 0) ∧
    ∀ (headers : List (List Char)) (colIdx : Nat) (cell : TableCell),
      (∀ s ∈ cell.segments, s.text = []) →
      cellChunk headers colIdx cell =
        [{ text := (if colIdx < headers.length then headers.getD colIdx []
                    else defaultLabel (colIdx + 1)) ++ "：".data,
           list_item := true }] := by
  refine ⟨by decide, by decide, ?_⟩
  intro headers colIdx cell hempty
  have hany : ((cell.segments.map fun s =>
      { s with list_item := true, list_ordered := false, list_level := 0 }).any
        fun s => !s.text.isEmpty) = false := by
    rw [List.any_map, List.any_eq_false]
    intro u hu
    simp [Function.comp, hempty u hu]
  simp only [cellChunk, hany, Bool.and_false, Bool.false_eq_true, if_false]

/-- C6 witness: the empty-cell clause evaluated at a concrete empty cell. -/
theorem claim6_table_roundtrip_witness :
    cellChunk ["Name".data] 0 { text := [], segments := [{ text := [] }] } =
      [{ text := "Name：".data, list_item := true }] := by
  have h := claim6_table_roundtrip.2.2 ["Name".data] 0
    { text := [], segments := [{ text := [] }] } (by intro s hs; simpa using List.mem_singleton.mp hs ▸ rfl)
  simpa using h

/-!
**C7** — interrupting an open table flushes it, but the separator marker is
inserted only when the re-parsed line yields segments.
-/

/-- C7, counterexample: with an open table, the line `>` (a quote marker
with empty content) is neither a table row nor a rule, yet
`parse_markdown` returns only the flushed table segments: the result
contains no separator marker segment at all, contradicting the claim
that the output is always flushed table segments, then exactly one
separator marker, then the re-parsed segments. -/
theorem claim7_counterexample :
    cexOpenTableCtx.in_table = true ∧
    (parseMarkdown ">".data cexOpenTableCtx).1 = serializeTable cexOpenTableCtx.table_rows ∧
    (({ text := [], horizontal_rule := false } : TextSegment) ∉
      (parseMarkdown ">".data cexOpenTableCtx).1) := by
  decide

/-- C7 (amended): for every parser state with an open table (and not inside
a fenced code block) and every non-empty line that is not an opening
fence, not a rule and not a table row, `parse_markdown` returns the
flushed table segments followed — only when the re-parse of the line
yields at least one segment — by exactly one separator marker segment
and the re-parsed segments, where the re-parse handles only headings,
quotes and inline styles; in particular no re-parsed segment is
stamped `is_list_item`, so a list-shaped line is not recognized as a
list item on this continuation pass. -/
theorem claim7_amended (text : List Char) (ctx : LineContext)
    (ht : ctx.in_table = true) (hcb : ctx.in_code_block = false)
    (hne : text ≠ []) (hfence : fenceOpenMatch text = none)
    (hrule : isRuleLine text = false) (hrow : tableRowMatch text = none) :
    parseMarkdown text ctx =
      ((if (parseLineCont text).isEmpty then serializeTable ctx.table_rows
        else serializeTable ctx.table_rows ++
          ({ text := [], horizontal_rule := false } : TextSegment) :: parseLineCont text),
        resetTable ctx) ∧
    ∀ s ∈ parseLineCont text, s.list_item = false := by
  refine ⟨?_, parseLineCont_no_list_item text⟩
  simp only [parseMarkdown, if_neg hne, hcb, Bool.false_eq_true, if_false, hfence,
    hrule, hrow, ht, if_true]

/-- C7 witness: the amended statement evaluated at the list-shaped line
`- x` interrupting an open table — the flushed segments, one separator,
the re-parsed segments, and no `is_list_item` stamp. -/
theorem claim7_amended_witness :
    (parseMarkdown "- x".data cexOpenTableCtx).1 =
      serializeTable cexOpenTableCtx.table_rows ++
        ({ text := [], horizontal_rule := false } : TextSegment) :: parseLineCont "- x".data ∧
    (parseLineCont "- x".data).map (·.list_item) = [false] := by
  have h := claim7_amended "- x".data cexOpenTableCtx (by decide) (by decide)
    (by decide) (by decide) (by decide) (by decide)
  constructor
  · rw [h.1]
    decide
  · decide

theorem base_not_mod (c : Char) (h : isEmojiBase c = true) : isEmojiMod c = false := by
  by_contra hb
  rw [Bool.not_eq_false] at hb
  simp only [isEmojiBase, Bool.or_eq_true, Bool.and_eq_true, decide_eq_true_eq] at h
  simp only [isEmojiMod, Bool.or_eq_true, Bool.and_eq_true, decide_eq_true_eq] at hb
  omega

theorem emojiGo_consume_mods :
    ∀ (mods : List Char) (e pending rest : List Char),
      (∀ c ∈ mods, isEmojiMod c = true) →
      emojiGo (some e) pending (mods ++ rest) =
        emojiGo (some (mods.reverse ++ e)) pending rest := by
  intro mods
  induction mods with
  | nil => intro e pending rest _; simp
  | cons c ms ih =>
    intro e pending rest hm
    simp only [List.cons_append, emojiGo, hm c (List.mem_cons_self _ _), if_true,
      List.append_eq]
    rw [ih (c :: e) pending rest (fun d hd => hm d (List.mem_cons_of_mem _ hd))]
    congr 1
    simp

/-!
**C4** — a zero-width-joiner composite emoji is NOT kept as one segment:
`PATTERN` matches one base codepoint plus its directly trailing
modifiers, so every further base codepoint starts a new match.
-/

/-- C4, counterexample: the composite `U+1F468 ZWJ U+1F469 VS-16` (base,
zero-width joiner, further emoji codepoint, trailing variation
selector) is split by `split_text` into TWO `is_emoji` segments, not
returned as exactly one segment. -/
theorem claim4_counterexample :
    splitText zwjComposite =
      [{ text := [Char.ofNat 0x1F468, Char.ofNat 0x200D], is_emoji := true },
       { text := [Char.ofNat 0x1F469, Char.ofNat 0xFE0F], is_emoji := true }] ∧
    (splitText zwjComposite).length ≠ 1 := by
  decide

/-- C4 (amended): `split_text` emits one `is_emoji` segment per base emoji
codepoint, each carrying exactly its directly trailing zero-width
joiner / variation-selector run: for every composite
`base₁ ++ mods₁ ++ base₂ ++ mods₂`, the result is the two segments
`base₁ ++ mods₁` and `base₂ ++ mods₂` — a composite whose modifier
sequence contains a second base codepoint is split, never one
segment. -/
theorem claim4_amended (b1 b2 : Char) (m1 m2 : List Char)
    (hb1 : isEmojiBase b1 = true) (hb2 : isEmojiBase b2 = true)
    (hm1 : ∀ c ∈ m1, isEmojiMod c = true) (hm2 : ∀ c ∈ m2, isEmojiMod c = true) :
    splitText (b1 :: m1 ++ b2 :: m2) =
      [{ text := b1 :: m1, is_emoji := true },
       { text := b2 :: m2, is_emoji := true }] := by
  unfold splitText
  simp only [emojiGo, hb1, if_true, List.append_eq]
  rw [emojiGo_consume_mods m1 [b1] [] (b2 :: m2) hm1]
  simp only [emojiGo, base_not_mod b2 hb2, Bool.false_eq_true, if_false, hb2, if_true]
  rw [show m2 = m2 ++ [] from (List.append_nil m2).symm,
    emojiGo_consume_mods m2 [b2] [] [] hm2]
  simp [emojiGo, splitSeparators]

/-- C4 witness: the amended statement evaluated at the concrete composite
`U+1F468 ZWJ U+1F469 VS-16`. -/
theorem claim4_amended_witness :
    splitText zwjComposite =
      [{ text := [Char.ofNat 0x1F468, Char.ofNat 0x200D], is_emoji := true },
       { text := [Char.ofNat 0x1F469, Char.ofNat 0xFE0F], is_emoji := true }] := by
  have h := claim4_amended (Char.ofNat 0x1F468) (Char.ofNat 0x1F469)
    [Char.ofNat 0x200D] [Char.ofNat 0xFE0F] (by decide) (by decide)
    (by intro c hc; rw [List.mem_singleton.mp hc]; decide)
    (by intro c hc; rw [List.mem_singleton.mp hc]; decide)
  simpa using h

/-!
**C9** — text preservation of the segmenter and the tokenizer.
-/

theorem runSegment_text (c : Char) (n : Nat) :
    (runSegment c n).text = List.replicate n c := by
  unfold runSegment
  split <;> rfl

theorem textConcat_cons (s : TextSegment) (l : List TextSegment) :
    textConcat (s :: l) = s.text ++ textConcat l := by
  simp [textConcat]

theorem textConcat_append (l1 l2 : List TextSegment) :
    textConcat (l1 ++ l2) = textConcat l1 ++ textConcat l2 := by
  simp [textConcat]

theorem splitSepGo_concat :
    ∀ (cs : List Char) (c : Char) (n : Nat),
      textConcat (splitSepGo c n cs) = List.replicate n c ++ cs := by
  intro cs
  induction cs with
  | nil =>
    intro c n
    simp [splitSepGo, textConcat, runSegment_text]
  | cons d rest ih =>
    intro c n
    simp only [splitSepGo]
    split
    · rename_i hd
      subst hd
      rw [ih, List.replicate_succ']
      simp
    · rw [textConcat_cons, runSegment_text, ih]
      simp

theorem splitSeparators_concat (cs : List Char) :
    textConcat (splitSeparators cs) = cs := by
  cases cs with
  | nil => rfl
  | cons c rest => simpa using splitSepGo_concat rest c 1

theorem emojiGo_concat :
    ∀ (cs : List Char) (st : Option (List Char)) (pending : List Char),
      textConcat (emojiGo st pending cs) =
        pending ++ (st.getD []).reverse ++ cs := by
  intro cs
  induction cs with
  | nil =>
    intro st pending
    cases st with
    | none =>
      simp only [emojiGo, Option.getD]
      rw [splitSeparators_concat]
      simp
    | some e =>
      simp only [emojiGo]
      rw [textConcat_append, splitSeparators_concat, textConcat_cons]
      simp [textConcat]
  | cons c rest ih =>
    intro st pending
    cases st with
    | none =>
      simp only [emojiGo]
      split
      · rw [ih (some [c]) pending]; simp
      · rw [ih none (pending ++ [c])]; simp
    | some e =>
      simp only [emojiGo]
      split
      · rw [ih (some (c :: e)) pending]; simp
      · split
        · rw [textConcat_append, textConcat_cons, ih (some [c]) []]
          simp [splitSeparators_concat]
        · rw [textConcat_append, textConcat_cons, ih none [c]]
          simp [splitSeparators_concat]

theorem applyStyle_text (style : Style) (s : TextSegment) :
    (applyStyle style s).text = s.text := by
  cases style <;> rfl

theorem textConcat_map_applyStyle (style : Style) (l : List TextSegment) :
    textConcat (l.map (applyStyle style)) = textConcat l := by
  induction l with
  | nil => rfl
  | cons s rest ih =>
    rw [List.map_cons, textConcat_cons, textConcat_cons, applyStyle_text, ih]

theorem mergeInto_concat :
    ∀ (l : List TextSegment) (last : TextSegment),
      textConcat (mergeInto last l) = last.text ++ textConcat l := by
  intro l
  induction l with
  | nil => intro last; simp [mergeInto, textConcat]
  | cons s rest ih =>
    intro last
    simp only [mergeInto]
    split
    · rw [ih, textConcat_cons]
      simp [List.append_assoc]
    · rw [textConcat_cons, ih, textConcat_cons]

theorem mergeSegments_concat (l : List TextSegment) :
    textConcat (mergeSegments l) = textConcat l := by
  cases l with
  | nil => rfl
  | cons s rest => rw [mergeSegments, mergeInto_concat, textConcat_cons]

theorem parseRecursiveF_concat_le :
    ∀ fuel cs, (textConcat (parseRecursiveF fuel cs)).length ≤ cs.length := by
  intro fuel
  induction fuel with
  | zero => intro cs; simp [parseRecursiveF, textConcat]
  | succ fuel ih =>
    intro cs
    cases hp : pickEarliest INLINE_PATTERNS cs with
    | none =>
      simp only [parseRecursiveF, hp]
      split
      · simp [textConcat]
      · simp [textConcat]
    | some m =>
      obtain ⟨hmem, heq⟩ := pickEarliest_eq _ _ _ hp
      have hlen := congrArg List.length heq
      simp only [List.length_append] at hlen
      simp only [parseRecursiveF, hp]
      rw [textConcat_append, textConcat_append, textConcat_map_applyStyle]
      have hpre : (textConcat (if m.pre = [] then ([] : List TextSegment)
          else [{ text := m.pre }])).length ≤ m.pre.length := by
        split <;> simp [textConcat]
      have h1 := ih m.inner
      have h2 := ih m.post
      simp only [List.length_append]
      omega

theorem parseRecursiveF_concat_drop (fuel : Nat) (cs : List Char) (m : InlineMatch)
    (hfuel : 1 ≤ fuel) (hp : pickEarliest INLINE_PATTERNS cs = some m) :
    (textConcat (parseRecursiveF fuel cs)).length + 2 * m.delim.length ≤ cs.length := by
  cases fuel with
  | zero => omega
  | succ k =>
    obtain ⟨hmem, heq⟩ := pickEarliest_eq _ _ _ hp
    have hlen := congrArg List.length heq
    simp only [List.length_append] at hlen
    simp only [parseRecursiveF, hp]
    rw [textConcat_append, textConcat_append, textConcat_map_applyStyle]
    have hpre : (textConcat (if m.pre = [] then ([] : List TextSegment)
        else [{ text := m.pre }])).length ≤ m.pre.length := by
      split <;> simp [textConcat]
    have h1 := parseRecursiveF_concat_le k m.inner
    have h2 := parseRecursiveF_concat_le k m.post
    simp only [List.length_append]
    omega

theorem pickEarliest_some_ne_nil (cs : List Char) (m : InlineMatch)
    (hp : pickEarliest INLINE_PATTERNS cs = some m) : cs ≠ [] := by
  intro hnil
  rw [hnil, (by decide : pickEarliest INLINE_PATTERNS [] = none)] at hp
  exact absurd hp (by simp)

theorem parseInlineStyles_concat_drop (text : List Char) (m : InlineMatch)
    (hp : pickEarliest INLINE_PATTERNS text = some m) :
    (textConcat (parseInlineStyles text)).length + 2 * m.delim.length ≤ text.length := by
  have hne : text ≠ [] := pickEarliest_some_ne_nil text m hp
  simp only [parseInlineStyles, if_neg hne]
  rw [mergeSegments_concat]
  unfold parseRecursive
  refine parseRecursiveF_concat_drop text.length text m ?_ hp
  cases text with
  | nil => exact absurd rfl hne
  | cons c rest => simp

/-- C9, counterexample: the inline tokenizer consumes the marker
delimiters, so concatenating the segment texts of `*a*` yields `a`,
not the original input — the tokenizer part of the claim fails on any
input containing a matched marker. -/
theorem claim9_counterexample :
    textConcat (parseInlineStyles "*a*".data) = "a".data ∧
    textConcat (parseInlineStyles "*a*".data) ≠ "*a*".data := by
  decide

/-- C9 (amended): the emoji/separator segmenter preserves the input
byte-for-byte for EVERY input (it never drops or reorders characters);
the inline tokenizer's concatenation equals the input IF AND ONLY IF
no marker pattern matches anywhere in the input; and whenever a marker
does match, the two delimiter occurrences of the earliest match are
consumed, so the concatenation is shorter than the input by at least
twice the delimiter length. -/
theorem claim9_amended :
    (∀ text, textConcat (splitText text) = text) ∧
    (∀ text, textConcat (parseInlineStyles text) = text ↔
      pickEarliest INLINE_PATTERNS text = none) ∧
    (∀ text m, pickEarliest INLINE_PATTERNS text = some m →
      (textConcat (parseInlineStyles text)).length + 2 * m.delim.length ≤
        text.length) := by
  refine ⟨?_, ?_, fun text m hp => parseInlineStyles_concat_drop text m hp⟩
  · intro text
    unfold splitText
    rw [emojiGo_concat text none []]
    rfl
  · intro text
    constructor
    · intro h
      cases hp : pickEarliest INLINE_PATTERNS text with
      | none => rfl
      | some m =>
        exfalso
        have hdrop := parseInlineStyles_concat_drop text m hp
        have hlen := congrArg List.length h
        obtain ⟨hmem, _⟩ := pickEarliest_eq _ _ _ hp
        have hd : 0 < m.delim.length :=
          List.length_pos.mpr (INLINE_PATTERNS_delim_ne_nil _ _ hmem)
        omega
    · intro hnone
      cases text with
      | nil => rfl
      | cons c rest =>
        simp only [parseInlineStyles, if_neg (by simp : ¬(c :: rest) = [])]
        unfold parseRecursive
        simp only [List.length_cons, parseRecursiveF, hnone,
          if_neg (by simp : ¬(c :: rest) = [])]
        simp [mergeSegments, mergeInto, textConcat]

/-- C9 witness: the amended statement evaluated at a mixed
plain/separator/emoji input, at a marker-free tokenizer input, and at
the matched input `*a*`, whose concatenation drops the two `*`
delimiters. -/
theorem claim9_amended_witness :
    textConcat (splitText "ab━━━".data) = "ab━━━".data ∧
    (textConcat (parseInlineStyles "ab".data) = "ab".data ↔
      pickEarliest INLINE_PATTERNS "ab".data = none) ∧
    (textConcat (parseInlineStyles "*a*".data)).length + 2 * 1 ≤ "*a*".data.length := by
  refine ⟨claim9_amended.1 "ab━━━".data, claim9_amended.2.1 "ab".data, ?_⟩
  have h := claim9_amended.2.2 "*a*".data
    ⟨[], ['*'], Style.italic, ['a'], []⟩ (by decide)
  simpa using h

/-!
**C8** — unavailable emoji bitmaps degrade to text, never failure.
-/

/-- C8: (i) the CDN loop of `render_emoji` returns the unavailable result
(`none`) — rather than propagating a failure — whenever every URL
fetch fails; (ii) painting an emoji segment whose bitmap is
unavailable draws the raw emoji text and advances by that fallback
text's measured width instead of the bitmap size; (iii) painting a
physical line is total — one paint operation per segment — and the
final horizontal position advances by the layout width for every
segment except bitmap-less emoji, which advance by their fallback text
width, for any provider. -/
theorem claim8_emoji_fallback :
    (∀ (B : Type) (fetch : String → Option B) (urls : List String),
        (∀ u ∈ urls, fetch u = none) → fetchFirst fetch urls = none) ∧
    (∀ (B : Type) (provider : List Char → Option B) (advTextW : List Char → Nat)
        (seg : TextSegment) (w x : Nat),
        seg.is_emoji = true → provider seg.text = none →
        paintSegStep provider advTextW seg w x =
          (PaintOp.drawText seg.text x, x + advTextW seg.text)) ∧
    (∀ (B : Type) (provider : List Char → Option B) (advTextW : List Char → Nat)
        (line : List (TextSegment × Nat)) (x : Nat),
        (paintLine provider advTextW line x).1.length = line.length ∧
        (paintLine provider advTextW line x).2 =
          x + (line.map (fun p =>
            if p.1.is_emoji then
              match provider p.1.text with
              | some _ => p.2
              | none => advTextW p.1.text
            else p.2)).sum) := by
  refine ⟨?_, ?_, ?_⟩
  · intro B fetch urls h
    induction urls with
    | nil => rfl
    | cons u rest ih =>
      simp only [fetchFirst, h u (List.mem_cons_self _ _)]
      exact ih (fun v hv => h v (List.mem_cons_of_mem _ hv))
  · intro B provider advTextW seg w x he hp
    simp [paintSegStep, he, hp]
  · intro B provider advTextW line
    induction line with
    | nil => intro x; simp [paintLine]
    | cons p rest ih =>
      intro x
      obtain ⟨seg, w⟩ := p
      simp only [paintLine, paintSegStep, List.map_cons, List.sum_cons, List.length_cons]
      by_cases he : seg.is_emoji = true
      · simp only [he, if_true]
        cases hp : provider seg.text with
        | some bmp =>
          simp only []
          refine ⟨by simp [(ih (x + w)).1], ?_⟩
          rw [(ih (x + w)).2]
          omega
        | none =>
          simp only []
          refine ⟨by simp [(ih (x + advTextW seg.text)).1], ?_⟩
          rw [(ih (x + advTextW seg.text)).2]
          omega
      · rw [Bool.not_eq_true] at he
        simp only [he, Bool.false_eq_true, if_false]
        refine ⟨by simp [(ih (x + w)).1], ?_⟩
        rw [(ih (x + w)).2]
        omega

/-- C8 witness: the failing-CDN loop and the fallback paint step evaluated
at concrete inputs. -/
theorem claim8_emoji_fallback_witness :
    fetchFirst (fun (_ : String) => (none : Option Nat)) ["a", "b"] = none ∧
    paintSegStep (fun (_ : List Char) => (none : Option Nat)) (fun t => t.length)
        { text := ['☀'], is_emoji := true } 26 5 =
      (PaintOp.drawText ['☀'] 5, 6) ∧
    (paintLine (fun (_ : List Char) => (none : Option Nat)) (fun t => t.length)
        [({ text := ['☀'], is_emoji := true }, 26), ({ text := ['x'] }, 7)] 0).2 = 8 := by
  refine ⟨?_, ?_, ?_⟩
  · exact claim8_emoji_fallback.1 Nat (fun _ => none) ["a", "b"] (fun u _ => rfl)
  · exact claim8_emoji_fallback.2.1 Nat (fun _ => none) (fun t => t.length)
      { text := ['☀'], is_emoji := true } 26 5 rfl rfl
  · rw [(claim8_emoji_fallback.2.2 Nat (fun _ => none) (fun t => t.length)
      [({ text := ['☀'], is_emoji := true }, 26), ({ text := ['x'] }, 7)] 0).2]
    decide

/-!
**C5** — the orphan-control flush (renderer lines 299–306) omits the
`list_continuation_active = True` update present in every other wrap
path, so a list item can wrap into several physical lines none of which
is marked as a continuation, and the paint phase then draws the bullet
on every one of them.
-/

/-- C5: the list item `- aabbcc` (three two-character runs after emoji
splitting), with per-character render widths 3/2/3 and a usable width
of 10, wraps into THREE physical lines via the two-characters-remaining
early flush; every segment of all three lines carries
`list_continuation = false`, and the paint phase draws the bullet on
all three lines — the claim (and the spec) require `false` only on the
first line, `true` on the second and third, and exactly one painted
bullet. -/
theorem claim5_divergence :
    listWrapSegments.any (·.list_item) = true ∧
    listWrapLines.length = 3 ∧
    listWrapLines.map (fun L => L.map (fun p => p.1.list_continuation)) =
      [[false, false], [false, false], [false, false]] ∧
    bulletCount listWrapMetrics 14 1 20 listWrapLines = 3 := by
  decide

/-!
**C1** — the per-physical-line width bound of the wrapping loop.
-/

theorem markContinuation_sum (l : List (TextSegment × Nat)) :
    lineWidthSum (markContinuation l) = lineWidthSum l := by
  induction l with
  | nil => rfl
  | cons p t ih =>
    simp only [markContinuation, List.map_cons, lineWidthSum, List.sum_cons] at ih ⊢
    omega

theorem markContinuation_length (l : List (TextSegment × Nat)) :
    (markContinuation l).length = l.length := by
  simp [markContinuation]

theorem lineWidthSum_append_unit (l : List (TextSegment × Nat))
    (s : TextSegment) (w : Nat) :
    lineWidthSum (l ++ [(s, w)]) = lineWidthSum l + w := by
  simp [lineWidthSum]

theorem line_nil_of_sum_zero (l : List (TextSegment × Nat))
    (hw : ∀ p ∈ l, 1 ≤ p.2) (h : lineWidthSum l = 0) : l = [] := by
  cases l with
  | nil => rfl
  | cons p t =>
    exfalso
    have h1 := hw p (List.mem_cons_self _ _)
    simp [lineWidthSum] at h
    omega

theorem flushedLine_good (eff : Nat) (li cont : Bool) (l : List (TextSegment × Nat))
    (h : lineWidthSum l + 2 ≤ eff ∨ l.length = 1) :
    lineWidthSum (if li && cont then markContinuation l else l) + 2 ≤ eff ∨
      (if li && cont then markContinuation l else l).length = 1 := by
  split
  · rcases h with h | h
    · exact Or.inl (by rwa [markContinuation_sum])
    · exact Or.inr (by rwa [markContinuation_length])
  · exact h

theorem builtLine_good (eff : Nat) (st : WrapSt)
    (hline : lineWidthSum st.line + 2 ≤ eff ∨ st.line.length ≤ 1)
    (hne : st.line ≠ []) :
    lineWidthSum st.line + 2 ≤ eff ∨ st.line.length = 1 := by
  rcases hline with h | h
  · exact Or.inl h
  · right
    have : 0 < st.line.length := List.length_pos.mpr hne
    omega

theorem atomicStep_inv (eff : Nat) (li : Bool) (seg : TextSegment) (w : Nat)
    (st : WrapSt) (hw : 1 ≤ w) (h : WrapInv eff st) :
    WrapInv eff (atomicStep eff li seg w st) := by
  obtain ⟨hitems, hx, hline, hws⟩ := h
  unfold atomicStep
  split
  · rename_i hcond
    simp only [Bool.and_eq_true, decide_eq_true_eq] at hcond
    obtain ⟨hov, hxpos⟩ := hcond
    have hne : st.line ≠ [] := by
      intro hnil
      rw [hnil] at hx
      simp [lineWidthSum] at hx
      omega
    refine ⟨?_, by simp [lineWidthSum], Or.inr (by simp), ?_⟩
    · intro L hL
      rcases List.mem_append.mp hL with hL | hL
      · exact hitems L hL
      · rw [List.mem_singleton.mp hL]
        exact flushedLine_good eff li st.cont st.line
          (builtLine_good eff st hline hne)
    · intro p hp
      rw [List.mem_singleton.mp hp]
      exact hw
  · rename_i hcond
    rw [Bool.and_eq_true, not_and_or] at hcond
    refine ⟨hitems, by rw [lineWidthSum_append_unit, hx], ?_, ?_⟩
    · rcases hcond with hno | hx0
      · left
        rw [lineWidthSum_append_unit]
        simp only [decide_eq_true_eq] at hno
        omega
      · right
        simp only [decide_eq_true_eq] at hx0
        have h0 : lineWidthSum st.line = 0 := by omega
        rw [line_nil_of_sum_zero st.line hws h0]
        simp
    · intro p hp
      rcases List.mem_append.mp hp with hp | hp
      · exact hws p hp
      · rw [List.mem_singleton.mp hp]
        exact hw

theorem charStepOne_inv (eff : Nat) (li : Bool) (seg : TextSegment)
    (cw : Char → Nat) (c : Char) (rest : List Char) (st : WrapSt)
    (hcw : ∀ d, 1 ≤ cw d) (hnls : noLineStart c = false)
    (h : WrapInv eff st) :
    WrapInv eff (charStepOne eff li seg cw c rest st) := by
  obtain ⟨hitems, hx, hline, hws⟩ := h
  unfold charStepOne
  simp only [hnls, Bool.not_false, Bool.and_true]
  by_cases hnw : (decide (st.x + cw c + 2 > eff) && decide (st.x > 0)) = true
  · -- normal wrap: lookahead is skipped, the line is flushed with marking
    simp only [hnw, Bool.not_true, Bool.false_eq_true, if_false, if_true]
    simp only [Bool.and_eq_true, decide_eq_true_eq] at hnw
    obtain ⟨hov, hxpos⟩ := hnw
    have hne : st.line ≠ [] := by
      intro hnil
      rw [hnil] at hx
      simp [lineWidthSum] at hx
      omega
    refine ⟨?_, by simp [lineWidthSum], Or.inr (by simp), ?_⟩
    · intro L hL
      rcases List.mem_append.mp hL with hL | hL
      · exact hitems L hL
      · rw [List.mem_singleton.mp hL]
        exact flushedLine_good eff li st.cont st.line
          (builtLine_good eff st hline hne)
    · intro p hp
      rw [List.mem_singleton.mp hp]
      exact hcw c
  · -- no wrap; the two-characters-remaining early flush may fire
    have hAB : ¬(st.x + cw c + 2 > eff ∧ st.x > 0) := by
      intro hand
      rw [decide_eq_true hand.1, decide_eq_true hand.2] at hnw
      simp at hnw
    rw [Bool.not_eq_true] at hnw
    simp only [hnw, Bool.not_false, if_true, Bool.false_eq_true, if_false]
    have hcases : st.x + cw c + 2 ≤ eff ∨ st.x = 0 := by omega
    split
    · rename_i next heq
      split
      · rename_i hla
        simp only [Bool.and_eq_true, decide_eq_true_eq] at hla
        obtain ⟨hlane, _⟩ := hla
        have hne : st.line ≠ [] := by
          intro hnil
          rw [hnil] at hlane
          simp at hlane
        refine ⟨?_, by simp [lineWidthSum], Or.inr (by simp), ?_⟩
        · intro L hL
          rcases List.mem_append.mp hL with hL | hL
          · exact hitems L hL
          · rw [List.mem_singleton.mp hL]
            refine builtLine_good eff st hline hne |>.imp id id |>.imp_left ?_
            exact id
        · intro p hp
          rw [List.mem_singleton.mp hp]
          exact hcw c
      · -- lookahead does not fire: plain append
        refine ⟨hitems, by rw [lineWidthSum_append_unit, hx], ?_, ?_⟩
        · rcases hcases with hno | hx0
          · left
            rw [lineWidthSum_append_unit]
            omega
          · right
            have h0 : lineWidthSum st.line = 0 := by omega
            rw [line_nil_of_sum_zero st.line hws h0]
            simp
        · intro p hp
          rcases List.mem_append.mp hp with hp | hp
          · exact hws p hp
          · rw [List.mem_singleton.mp hp]
            exact hcw c
    · -- rest not a singleton: plain append
      refine ⟨hitems, by rw [lineWidthSum_append_unit, hx], ?_, ?_⟩
      · rcases hcases with hno | hx0
        · left
          rw [lineWidthSum_append_unit]
          omega
        · right
          have h0 : lineWidthSum st.line = 0 := by omega
          rw [line_nil_of_sum_zero st.line hws h0]
          simp
      · intro p hp
        rcases List.mem_append.mp hp with hp | hp
        · exact hws p hp
        · rw [List.mem_singleton.mp hp]
          exact hcw c

theorem charStep_inv (eff : Nat) (li : Bool) (seg : TextSegment)
    (cw : Char → Nat) (hcw : ∀ d, 1 ≤ cw d) :
    ∀ chars st, (∀ c ∈ chars, noLineStart c = false) → WrapInv eff st →
      WrapInv eff (charStep eff li seg cw chars st) := by
  intro chars
  induction chars with
  | nil => intro st _ h; exact h
  | cons c rest ih =>
    intro st hnls h
    exact ih _ (fun d hd => hnls d (List.mem_cons_of_mem _ hd))
      (charStepOne_inv eff li seg cw c rest st hcw
        (hnls c (List.mem_cons_self _ _)) h)

theorem sumBaseRenderW_pos (m : Metrics) (text : List Char)
    (hrw : ∀ f c b, 1 ≤ m.renderW f c b) (hne : text ≠ []) :
    1 ≤ sumBaseRenderW m text := by
  cases text with
  | nil => exact absurd rfl hne
  | cons c rest =>
    have := hrw .base c false
    simp [sumBaseRenderW]
    omega

theorem procSeg_inv (m : Metrics) (eff emoji_size : Nat) (li : Bool)
    (st : WrapSt) (seg : TextSegment)
    (hrw : ∀ f c b, 1 ≤ m.renderW f c b) (hes : 1 ≤ emoji_size)
    (hcb : seg.code_block = false)
    (hnwne : seg.no_wrap = true → seg.text ≠ [])
    (hnls : ∀ c ∈ seg.text, noLineStart c = false)
    (h : WrapInv eff st) :
    WrapInv eff (procSeg m eff emoji_size li st seg) := by
  unfold procSeg
  simp only [hcb, Bool.false_eq_true, if_false]
  split
  · exact atomicStep_inv eff li seg emoji_size st hes h
  · split
    · rename_i hnw
      exact atomicStep_inv eff li seg (sumBaseRenderW m seg.text) st
        (sumBaseRenderW_pos m seg.text hrw (hnwne hnw)) h
    · exact charStep_inv eff li seg _ (fun d => hrw (calcFontFor m seg) d seg.bold)
        seg.text st hnls h

theorem foldl_procSeg_inv (m : Metrics) (eff emoji_size : Nat) (li : Bool)
    (hrw : ∀ f c b, 1 ≤ m.renderW f c b) (hes : 1 ≤ emoji_size) :
    ∀ (segs : List TextSegment) (st : WrapSt),
      (∀ seg ∈ segs, seg.code_block = false) →
      (∀ seg ∈ segs, seg.no_wrap = true → seg.text ≠ []) →
      (∀ seg ∈ segs, ∀ c ∈ seg.text, noLineStart c = false) →
      WrapInv eff st →
      WrapInv eff (segs.foldl (procSeg m eff emoji_size li) st) := by
  intro segs
  induction segs with
  | nil => intro st _ _ _ h; exact h
  | cons seg rest ih =>
    intro st hcb hnwne hnls h
    exact ih _ (fun s hs => hcb s (List.mem_cons_of_mem _ hs))
      (fun s hs => hnwne s (List.mem_cons_of_mem _ hs))
      (fun s hs => hnls s (List.mem_cons_of_mem _ hs))
      (procSeg_inv m eff emoji_size li st seg hrw hes
        (hcb seg (List.mem_cons_self _ _))
        (hnwne seg (List.mem_cons_self _ _))
        (hnls seg (List.mem_cons_self _ _)) h)

/-- C1, counterexample: with usable width 10 and a plain (non-emoji,
non-`no_wrap`) one-character segment of render width 20, the wrap loop
places the character alone on a physical line whose width sum, 20,
exceeds the usable width plus the 2-pixel safety margin — and the
claim's exception does not apply because the lone unit is neither an
`is_emoji` nor a `no_wrap` segment. -/
theorem claim1_counterexample :
    (buildLineLayout wideCharMetrics wideCharSegments 10 1 20).effective_width = 10 ∧
    wideCharLines = [[(({ text := ['W'] } : TextSegment), 20)]] ∧
    ¬(lineWidthSum [(({ text := ['W'] } : TextSegment), 20)] + 2 ≤ 10 + 2) ∧
    ({ text := ['W'] } : TextSegment).is_emoji = false ∧
    ({ text := ['W'] } : TextSegment).no_wrap = false := by
  decide

/-- C1 (amended): for segment lists containing no code-block segments
(those bypass the wrap check entirely), no characters from the
no-line-start punctuation set (those are kept on an overflowing line),
no empty atomic separator segments, and with every character render
width and the emoji size positive, every physical line produced by the
wrapping loop either has width sum at most the usable content width
minus the 2-pixel safety margin, or consists of a single unit placed
alone — where the lone oversized unit may be an atomic segment or a
single plain character, not only an atomic one. -/
theorem claim1_amended (m : Metrics) (taw scale emoji_size : Nat)
    (segments : List TextSegment)
    (hrw : ∀ f c b, 1 ≤ m.renderW f c b) (hes : 1 ≤ emoji_size)
    (hcb : ∀ seg ∈ segments, seg.code_block = false)
    (hnwne : ∀ seg ∈ segments, seg.no_wrap = true → seg.text ≠ [])
    (hnls : ∀ seg ∈ segments, ∀ c ∈ seg.text, noLineStart c = false) :
    ∀ L ∈ wrapLogicalLine m taw scale emoji_size segments,
      lineWidthSum L + 2 ≤
          (buildLineLayout m segments taw scale (max 20 emoji_size)).effective_width ∨
        L.length = 1 := by
  intro L hL
  unfold wrapLogicalLine at hL
  set eff := (buildLineLayout m segments taw scale (max 20 emoji_size)).effective_width with heff
  have hinv : WrapInv eff
      (segments.foldl (procSeg m eff emoji_size (segments.any (·.list_item)))
        ⟨[], [], 0, false⟩) := by
    refine foldl_procSeg_inv m eff emoji_size _ hrw hes segments _ hcb hnwne hnls ?_
    exact ⟨fun L hL => absurd hL (List.not_mem_nil L), rfl, Or.inr (by simp),
      fun p hp => absurd hp (List.not_mem_nil p)⟩
  set st := segments.foldl (procSeg m eff emoji_size (segments.any (·.list_item)))
    ⟨[], [], 0, false⟩ with hst
  obtain ⟨hitems, hx, hline, hws⟩ := hinv
  simp only [← heff, ← hst] at hL
  split at hL
  · exact hitems L hL
  · rename_i hne
    rcases List.mem_append.mp hL with hL | hL
    · exact hitems L hL
    · rw [List.mem_singleton.mp hL]
      have hne' : st.line ≠ [] := by
        intro hnil
        rw [hnil] at hne
        simp at hne
      exact flushedLine_good eff _ st.cont st.line
        (builtLine_good eff st hline hne')

/-- C1 witness: the amended bound evaluated on the first physical line of
the wrapped list item `- aabbcc`. -/
theorem claim1_amended_witness :
    lineWidthSum ((wrapLogicalLine listWrapMetrics 14 1 20 listWrapSegments).headD []) + 2 ≤
        (buildLineLayout listWrapMetrics listWrapSegments 14 1 (max 20 20)).effective_width ∨
      ((wrapLogicalLine listWrapMetrics 14 1 20 listWrapSegments).headD []).length = 1 := by
  have hmem : (wrapLogicalLine listWrapMetrics 14 1 20 listWrapSegments).headD [] ∈
      wrapLogicalLine listWrapMetrics 14 1 20 listWrapSegments := by decide
  refine claim1_amended listWrapMetrics 14 1 20 listWrapSegments ?_ (by omega)
    (by decide) (by decide) (by decide) _ hmem
  intro f c b
  dsimp [listWrapMetrics]
  split_ifs <;> omega

end T2I
